import Mathlib

/-!
Verification of the import/export-path rewriting engine of the
`anonymize-package` script (a bun/node script using `fs` and `path`).

The script's components embedded here:
  * `path` helpers (POSIX): `resolveP`, `pjoin`, `normalizeP`, `dirnameP`,
    `relativeP` model `path.resolve`, `path.join`, `path.normalize`,
    `path.dirname`, `path.relative` on absolute, forward-slash paths,
    which is the only way the script uses them.
  * `extractImports` — the Reference Extractor (source lines 294-378),
  * `findUsedFiles` — the Dependency Graph Builder (source lines 381-470),
  * `anonymizeDirectories` — the Directory Rename Planner (lines 519-559),
  * `updateExportPaths` — the Reference Rewriter (lines 562-677),
  * `generateFolderName` and its JS 32-bit hash (lines 109-115),
  * the argument-validation prefix of `main` (lines 680-705).

File contents are modelled as lists of statements (`Stmt`): the script
recognises statements lexically with the regexes
  import-form  (direct):  between the word import and the word from there
                          must be at least one character that is neither an
                          open brace nor a star, i.e. the binding text of a
                          matching statement cannot begin with a brace or a
                          star and cannot be empty;
  import-form  (rewriter): any import ... from statement, no binding check;
  export-from  form:      any export ... from statement.
A `Stmt.fromStmt k b s` stands for one such statement with keyword `k`,
binding text `b` (the tokens between the keyword and the word from, with
single-space separation) and quoted specifier `s`; `Stmt.other` is any other
line of text. String operations (`startsWith`, `endsWith`, suffix-anchored
regex replaces, string concatenation) are modelled exactly on code units.
-/

/-- JS `String.prototype.startsWith`: code-unit prefix test. -/
def strStartsWith (s pre : String) : Bool := pre.data.isPrefixOf s.data

/-- JS `String.prototype.endsWith`: code-unit suffix test. -/
def strEndsWith (s suf : String) : Bool := suf.data.isSuffixOf s.data

/-- JS `s.replace(re, '')` for a suffix-anchored literal regex: drop the
suffix when present, otherwise return the string unchanged. -/
def stripSuffixStr (s suf : String) : String :=
  if strEndsWith s suf then String.mk (s.data.take (s.data.length - suf.data.length)) else s

/-- Split a character list at every slash (JS `'…'.split('/')` shape:
`'/p/src'` gives `['', 'p', 'src']`). -/
def splitSlashAux : List Char → List Char → List (List Char)
  | [], acc => [acc.reverse]
  | c :: rest, acc =>
    if c = '/' then acc.reverse :: splitSlashAux rest [] else splitSlashAux rest (c :: acc)

/-- Path-segment decomposition of a string. -/
def splitSegs (s : String) : List String := (splitSlashAux s.data []).map String.mk

/-- One step of POSIX path normalization over segments: empty and dot
segments vanish, a dot-dot segment removes the previous segment (or nothing
at the root, as `path.resolve` does), and any other segment is kept. -/
def collapseStep (acc : List String) (seg : String) : List String :=
  if seg = "" ∨ seg = "." then acc
  else if seg = ".." then acc.dropLast
  else acc ++ [seg]

/-- Normalize a segment list (left to right, as node's path parser does). -/
def collapseSegs (l : List String) : List String := l.foldl collapseStep []

/-- Join segments with slashes (no leading slash). -/
def joinSegs : List String → String
  | [] => ""
  | [s] => s
  | s :: t => s ++ "/" ++ joinSegs t

/-- Render an absolute path from normalized segments. -/
def renderAbs (l : List String) : String := "/" ++ joinSegs l

/-- Model of `path.join(a, b)` for the script's call sites (first argument
absolute): concatenate and normalize, dot-dot segments collapsing into the
prefix exactly as node does. -/
def pjoin (a b : String) : String := renderAbs (collapseSegs (splitSegs a ++ splitSegs b))

/-- Model of `path.normalize` on an absolute POSIX path. -/
def normalizeP (p : String) : String := renderAbs (collapseSegs (splitSegs p))

/-- Model of `path.resolve(dir, rel)` with `dir` absolute: an absolute
second argument wins outright, otherwise join and normalize. -/
def resolveP (dir rel : String) : String :=
  if strStartsWith rel "/" then normalizeP rel else pjoin dir rel

/-- Model of `path.dirname` on an absolute path. -/
def dirnameP (p : String) : String := renderAbs ((collapseSegs (splitSegs p)).dropLast)

/-- The normalized segment list of a path string (the path's directory
segments followed by its file segment, with empty, dot and dot-dot
segments collapsed away). -/
def pathSegs (p : String) : List String := collapseSegs (splitSegs p)

/-- Drop the longest common segment prefix of two segment lists. -/
def dropCommonSegs : List String → List String → List String × List String
  | a :: as, b :: bs => if a = b then dropCommonSegs as bs else (a :: as, b :: bs)
  | as, bs => (as, bs)

/-- Model of `path.relative(f, t)` on absolute POSIX paths: strip the common
prefix, one dot-dot per remaining source segment, then the target rest. -/
def relativeP (f t : String) : String :=
  let p := dropCommonSegs (collapseSegs (splitSegs f)) (collapseSegs (splitSegs t))
  joinSegs (List.replicate p.1.length ".." ++ p.2)

/-- The two statement keywords the script's regexes recognise. -/
inductive StmtKind where
  | imp : StmtKind
  | exp : StmtKind
deriving DecidableEq, Repr

/-- A lexical statement of a source file: a from-statement with its keyword,
binding text and quoted specifier, or any other text. -/
inductive Stmt where
  | fromStmt : StmtKind → String → String → Stmt
  | other : Stmt
deriving DecidableEq, Repr

/-- The file-system state a run sees: text files (path and parsed statement
list) and directories, all with absolute normalized slash paths. -/
structure Fsys where
  files : List (String × List Stmt)
  dirs : List String
deriving DecidableEq, Repr

/-- The paths of the regular files. -/
def filePaths (fs : Fsys) : List String := fs.files.map Prod.fst

/-- Model of `fs.existsSync` (true for files and for directories). -/
def existsAnyF (fs : Fsys) (p : String) : Bool :=
  decide (p ∈ filePaths fs ∨ p ∈ fs.dirs)

/-- Model of `fs.readFileSync` + statement recognition: the statement list
of the file at `p`, empty when `p` is not a file. -/
def readStmts (fs : Fsys) (p : String) : List Stmt :=
  ((fs.files.find? (fun e => e.1 = p)).map Prod.snd).getD []

/-!
The Path Resolver as the script implements it (the resolution block that
appears verbatim in `extractImports`, in the inline direct-import scan of
`findUsedFiles`, and in both halves of `updateExportPaths`, source lines
317-330, 358-365, 414-421, 581-588, 634-641).
-/

/-- The `resolvedPath` the script computes for a relative specifier: the
specifier itself when it already ends in `.ts` (no existence check), else
the specifier plus `.ts` when that file exists, else specifier plus
`/index.ts` (assigned without an existence check).  The three-argument
`path.resolve(dir, spec, 'index.ts')` equals `path.resolve` of
`spec + '/index.ts'` because the final segment is plain. -/
def resolveImportPath (fs : Fsys) (dir spec : String) : String :=
  if strEndsWith spec ".ts" then resolveP dir spec
  else
    let p1 := resolveP dir (spec ++ ".ts")
    if existsAnyF fs p1 then p1 else resolveP dir (spec ++ "/index.ts")

/-- The acceptance filter of `extractImports` and `findUsedFiles` (source
lines 332-340, 367-374, 423-430): normalize, then keep the path only when
its string starts with the normalized package root and it exists. -/
def resolveAccepted (fs : Fsys) (root dir spec : String) : Option String :=
  let r := normalizeP (resolveImportPath fs dir spec)
  if strStartsWith r (normalizeP root) ∧ existsAnyF fs r then some r else none

/-- Whether the direct-import regex can match a statement with this binding
text: between `import` and `from` the first character may be neither an open
brace nor a star, and there must be at least one such character. -/
def matchesDirectBinding (b : String) : Bool :=
  !(strStartsWith b "\x7b") && !(strStartsWith b "*") && !(b = "")

/-- The specifier filter shared by both loops of `extractImports` (source
lines 309-315, 348-352): skip scoped externals and anything that is not
relative, i.e. process only specifiers that do not start with an at sign and
do start with a dot or a slash. -/
def isRelevantSpec (spec : String) : Bool :=
  !(strStartsWith spec "@") && (strStartsWith spec "." || strStartsWith spec "/")

/-- The Reference Extractor `extractImports(filePath, packageRoot)` (source
lines 294-378): a pair of resolved direct-import paths and resolved
re-export paths; unresolved and external specifiers are silently dropped. -/
def extractImports (fs : Fsys) (root fp : String) : List String × List String :=
  if existsAnyF fs fp then
    let dir := dirnameP fp
    ((readStmts fs fp).filterMap (fun s =>
        match s with
        | Stmt.fromStmt StmtKind.imp b spec =>
          if matchesDirectBinding b && isRelevantSpec spec then
            resolveAccepted fs root dir spec
          else none
        | _ => none),
     (readStmts fs fp).filterMap (fun s =>
        match s with
        | Stmt.fromStmt StmtKind.exp _ spec =>
          if isRelevantSpec spec then resolveAccepted fs root dir spec else none
        | _ => none))
  else ([], [])

/-!
The Reference Rewriter `updateExportPaths(filePath, dirMap)` (source lines
562-677).  Both regex passes (export-from first, import-from second) run the
same replacement body on each from-statement's specifier, so the rewrite is
modelled once per statement.  `dirMap` iteration order is insertion order
(a JS `Map`), and the first entry whose old path is a string prefix of the
resolved path wins.
-/

/-- The per-specifier replacement body (source lines 572-621 and 626-671). -/
def rewriteSpec (fs : Fsys) (dirMap : List (String × String)) (dir spec : String) :
    String × Bool :=
  if !(strStartsWith spec ".") && !(strStartsWith spec "/") then (spec, false)
  else
    let resolvedPath := resolveImportPath fs dir spec
    match dirMap.find? (fun e => strStartsWith resolvedPath e.1) with
    | none => (spec, false)
    | some e =>
      let relativePath := relativeP e.1 resolvedPath
      let newResolvedPath := pjoin e.2 relativePath
      let newRelativePath := relativeP dir newResolvedPath
      let s1 :=
        if strEndsWith spec ".ts" then newRelativePath
        else if strEndsWith spec "/index" || strEndsWith spec "/" then
          stripSuffixStr (stripSuffixStr newRelativePath "/index.ts") ".ts"
        else stripSuffixStr newRelativePath ".ts"
      let s2 := if strStartsWith s1 "." then s1 else "./" ++ s1
      (s2, true)

/-- Rewrite one statement; non-from statements pass through untouched. -/
def rewriteStmt (fs : Fsys) (dirMap : List (String × String)) (dir : String) :
    Stmt → Stmt × Bool
  | Stmt.fromStmt k b spec =>
    let r := rewriteSpec fs dirMap dir spec
    (Stmt.fromStmt k b r.1, r.2)
  | Stmt.other => (Stmt.other, false)

/-- The Reference Rewriter on one file: the rewritten statement list and the
`modified` flag; the script writes the file back exactly when the flag is
set (source lines 674-676), and returns without reading when the file does
not exist (lines 563-565). -/
def updateExportPaths (fs : Fsys) (dirMap : List (String × String)) (fp : String) :
    List Stmt × Bool :=
  if existsAnyF fs fp then
    let rs := (readStmts fs fp).map (rewriteStmt fs dirMap (dirnameP fp))
    (rs.map Prod.fst, rs.any Prod.snd)
  else (readStmts fs fp, false)

/-!
The Dependency Graph Builder `findUsedFiles(packageRoot)` (source lines
381-470).  The worklist loop is embedded with explicit fuel; the claim that
the loop terminates on every input is then the statement that some fuel
suffices.  Queue entries are pushed only after the acceptance filter, so
they are always existing paths, and they are already normalized, so the
redundant `path.normalize` at shift time (line 395) is dropped.  The inline
direct-import scan (lines 405-432) computes exactly the direct-import list
of `extractImports` and adds it to the same accumulator set that the
`directImports` loop (lines 440-447) adds to, so the model performs the
addition once.
-/

/-- The collected traversal state the script builds: `usedFiles`, the
`directlyImportedFiles` accumulator, and the derived `reExportedFiles`. -/
structure UsedResult where
  used : List String
  direct : List String
  reExported : List String
deriving DecidableEq, Repr

/-- One worklist loop of `findUsedFiles` (lines 394-456) with fuel. -/
def findUsedLoop (fs : Fsys) (root : String) :
    Nat → List String → List String → List String → Option (List String × List String)
  | 0, _, _, _ => none
  | _ + 1, [], used, direct => some (used, direct)
  | fuel + 1, h :: t, used, direct =>
    if h ∈ used then findUsedLoop fs root fuel t used direct
    else
      let er := extractImports fs root h
      let used2 := h :: used
      let direct2 := direct ++ er.1
      let queue2 := t ++ er.1.filter (fun x => decide (x ∉ used2))
        ++ er.2.filter (fun x => decide (x ∉ used2))
      findUsedLoop fs root fuel queue2 used2 direct2

/-- The entry module `path.join(packageRoot, 'src', 'index.ts')` of lines
385-391.  `path.join` already returns a normalized path, so the script's
subsequent `path.normalize` is the identity and `pjoin`, which collapses as
it joins, models the composition directly. -/
def entryPoint (root : String) : String :=
  pjoin (pjoin root "src") "index.ts"

/-- `findUsedFiles(packageRoot)` (lines 381-470): empty result when the
entry file is missing, else the worklist traversal from the entry followed
by the re-export-only filter of lines 459-467: used, not directly imported,
not ending in `index.ts`, ending in `.ts`. -/
def findUsedFiles (fs : Fsys) (root : String) (fuel : Nat) : Option UsedResult :=
  if existsAnyF fs (entryPoint root) then
    match findUsedLoop fs root fuel [entryPoint root] [] [] with
    | none => none
    | some (used, direct) =>
      some ⟨used, direct,
        used.filter (fun f =>
          decide (f ∉ direct) && !(strEndsWith f "index.ts") && strEndsWith f ".ts")⟩
  else some ⟨[], [], []⟩

/-!
The Directory Rename Planner `anonymizeDirectories(packageRoot, dirMap,
index)` (source lines 519-559) and the deterministic name generator
`generateFolderName` (lines 109-115) with the JS 32-bit string hash.
-/

/-- ToInt32: wrap an exact integer to a signed 32-bit value, as the JS
shift operator does to its operand and its result. -/
def toInt32 (x : Int) : Int := (x + 2147483648).emod 4294967296 - 2147483648

/-- One step of the reduce in the hash: shift the accumulator left by five
as a 32-bit value, subtract the unwrapped accumulator, add the code unit
(exact double arithmetic in JS, exact integers here). -/
def hashStep (acc : Int) (c : Char) : Int :=
  toInt32 (toInt32 acc * 32) - acc + (c.toNat : Int)

/-- The `split('').reduce(...)` hash over a string's code units. -/
def jsHash (s : String) : Int := s.data.foldl hashStep 0

/-- A base-36 digit as JS `toString(36)` renders it (0-9 then a-z). -/
def digit36 (n : Nat) : Char := Char.ofNat (if n < 10 then 48 + n else 87 + n)

/-- JS `Number.prototype.toString(36)` for a nonnegative integer. -/
def toBase36 (n : Nat) : String :=
  if _h : n < 36 then String.mk [digit36 n]
  else toBase36 (n / 36) ++ String.mk [digit36 (n % 36)]
decreasing_by exact Nat.div_lt_self (by omega) (by omega)

/-- Decimal rendering of a nonnegative integer (JS string coercion). -/
def toBase10 (n : Nat) : String :=
  if _h : n < 10 then String.mk [Char.ofNat (48 + n)]
  else toBase10 (n / 10) ++ String.mk [Char.ofNat (48 + n % 10)]
decreasing_by exact Nat.div_lt_self (by omega) (by omega)

/-- `generateFolderName(originalName, index)` (lines 109-115): hash the
name with the decimal counter appended, take the absolute value, render in
base 36 behind the prefix `dir-`. -/
def generateFolderName (originalName : String) (index : Nat) : String :=
  "dir-" ++ toBase36 (Int.natAbs (jsHash (originalName ++ toBase10 index)))

/-- A directory subtree as `readdirSync(..., withFileTypes)` reveals it:
name and subdirectories in directory-listing order (files in a listing are
skipped by the planner without touching the counter). -/
inductive DirTree where
  | node : String → List DirTree → DirTree

/-- `anonymizeDirectories(packageRoot, dirMap, index)` (lines 519-559) over
the listed entries of `packageRoot`.  Excluded names are skipped without
counter increment; otherwise the subtree is processed first with the
current counter value (the counter is a by-value parameter in the script,
so inner increments do not reach the caller), then a new name is generated,
the mapping recorded and the physical rename performed unless the generated
name equals the original, and the counter incremented for the next sibling.
The returned list is the rename map in insertion order. -/
def anonymizeDirectories (root : String) :
    List DirTree → List (String × String) → Nat → List (String × String)
  | [], m, _ => m
  | DirTree.node nm subs :: ts, m, idx =>
    if nm = "node_modules" ∨ nm = "dist" ∨ nm = ".git" ∨ nm = "test" then
      anonymizeDirectories root ts m idx
    else
      let fullPath := pjoin root nm
      let m1 := anonymizeDirectories fullPath subs m idx
      let newName := generateFolderName nm idx
      let m2 := if nm = newName then m1 else m1 ++ [(fullPath, pjoin root newName)]
      anonymizeDirectories root ts m2 (idx + 1)
termination_by l _ _ => sizeOf l

/-!
The argument-validation prefix of `main` (source lines 680-705): the three
fatal checks run before anything mutates, and the missing-argument check
runs before any file-system call.  The observable file-system activity is
traced as read and mutate events; everything `main` does after the checks
(lines 707-941, which reads, writes, renames and deletes) is abstracted as
the caller-supplied `restOps` trace.
-/

/-- An observable file-system action: a query (exists/stat/readdir/read) or
a mutation (write/rename/delete). -/
inductive FsOp where
  | read : FsOp
  | mutate : FsOp
deriving DecidableEq, Repr

/-- What a run of `main` does: the exit code when it stops at a fatal check
(`none` when it proceeds past them) and the trace of file-system actions. -/
structure MainOutcome where
  exitCode : Option Nat
  ops : List FsOp
deriving DecidableEq, Repr

/-- `path.resolve(packagePath)`: against the working directory when the
argument is relative. -/
def absOf (cwd p : String) : String :=
  if strStartsWith p "/" then normalizeP p else resolveP cwd p

/-- The prefix of `main()` (lines 680-705): no argument reports usage and
exits 1 having touched nothing; a non-existent path exits 1 after one
existence query; an existing non-directory exits 1 after the query and the
stat; otherwise the run proceeds into the rest of the script. -/
def mainModel (argv2 : Option String) (fs : Fsys) (cwd : String)
    (restOps : List FsOp) : MainOutcome :=
  match argv2 with
  | none => ⟨some 1, []⟩
  | some p =>
    let abs := absOf cwd p
    if existsAnyF fs abs = false then ⟨some 1, [FsOp.read]⟩
    else if abs ∉ fs.dirs then ⟨some 1, [FsOp.read, FsOp.read]⟩
    else ⟨none, FsOp.read :: FsOp.read :: restOps⟩

/-!
Notions taken from the specification's wording rather than the script (for
comparing claimed behaviour with implemented behaviour), and the concrete
package trees the claims' examples describe.
-/

/-- Whether a path lies underneath a directory in the file-system sense: it
is the directory itself or a descendant reached through a path separator.
This is the spec's notion of in-package containment and of a path being
under a rename-plan key; the script instead tests a plain string prefix. -/
def underneathDir (d p : String) : Bool := (p = d) || strStartsWith p (d ++ "/")

/-- The claim's direct-import classification of a binding: a default or
named binding qualifies, a namespace (star) binding does not, and a bare
side-effect import has no binding at all. -/
def claimedDirectBinding (b : String) : Bool := !(strStartsWith b "*") && !(b = "")

/-- The example package before any rename: the entry imports `./a/util`,
which re-exports `./b/helper`. -/
def pkgPreRename : Fsys :=
  ⟨[("/p/src/index.ts", [Stmt.fromStmt StmtKind.imp "x" "./a/util"]),
    ("/p/src/a/util.ts", [Stmt.fromStmt StmtKind.exp "*" "./b/helper"]),
    ("/p/src/a/b/helper.ts", [])],
   ["/p", "/p/src", "/p/src/a", "/p/src/a/b"]⟩

/-- The same package after the physical renames `src/a` to `src/x7k` and
`src/a/b` to `src/x7k/m2p`, which is the state the rewriter runs in (the
script renames directories at line 829 and rewrites at line 855). -/
def pkgPostRename : Fsys :=
  ⟨[("/p/src/index.ts", [Stmt.fromStmt StmtKind.imp "x" "./a/util"]),
    ("/p/src/x7k/util.ts", [Stmt.fromStmt StmtKind.exp "*" "./b/helper"]),
    ("/p/src/x7k/m2p/helper.ts", [])],
   ["/p", "/p/src", "/p/src/x7k", "/p/src/x7k/m2p"]⟩

/-- The rename plan of that example, in the claim's own terms. -/
def renamePlanAB : List (String × String) :=
  [("/p/src/a", "/p/src/x7k"), ("/p/src/a/b", "/p/src/x7k/m2p")]

/-- The index-fallback example before the rename: `../shared` from
`src/sub/file.ts` reaches `src/shared/index.ts`. -/
def sharedPre : Fsys :=
  ⟨[("/p/src/sub/file.ts", [Stmt.fromStmt StmtKind.exp "*" "../shared"]),
    ("/p/src/shared/index.ts", [])],
   ["/p", "/p/src", "/p/src/sub", "/p/src/shared"]⟩

/-- The index-fallback example after `shared` is renamed to `q9z`. -/
def sharedPost : Fsys :=
  ⟨[("/p/src/sub/file.ts", [Stmt.fromStmt StmtKind.exp "*" "../shared"]),
    ("/p/src/q9z/index.ts", [])],
   ["/p", "/p/src", "/p/src/sub", "/p/src/q9z"]⟩

/-- The rename plan of the index-fallback example. -/
def renamePlanShared : List (String × String) := [("/p/src/shared", "/p/src/q9z")]

/-- A package whose entry re-exports a nested barrel file
`src/sub/index.ts` without importing anything directly. -/
def barrelFs : Fsys :=
  ⟨[("/p/src/index.ts", [Stmt.fromStmt StmtKind.exp "*" "./sub"]),
    ("/p/src/sub/index.ts", [])],
   ["/p", "/p/src", "/p/src/sub"]⟩

/-- A file whose only statement is a named import of an in-package file. -/
def namedImportFs : Fsys :=
  ⟨[("/p/src/main.ts", [Stmt.fromStmt StmtKind.imp "\x7b a \x7d" "./m"]),
    ("/p/src/m.ts", [])],
   ["/p", "/p/src"]⟩

/-- Two sibling packages whose names share a string prefix; a specifier in
`pkg` reaches a file of `pkg2`. -/
def siblingRootFs : Fsys :=
  ⟨[("/w/pkg/src/a.ts", [Stmt.fromStmt StmtKind.imp "x" "../../pkg2/secret.ts"]),
    ("/w/pkg2/secret.ts", [])],
   ["/w", "/w/pkg", "/w/pkg/src", "/w/pkg2"]⟩

/-- A package with sibling directories `a`-like and `ab`: the file imports
from `ab`, and only `a` is in the rename plan. -/
def collisionFs : Fsys :=
  ⟨[("/p/src/main.ts", [Stmt.fromStmt StmtKind.imp "x" "./ab/x"]),
    ("/p/src/ab/x.ts", [])],
   ["/p", "/p/src", "/p/src/ab"]⟩

/-- A rename plan whose only key is `/p/src/a`, a proper string prefix of
the sibling directory `/p/src/ab`. -/
def collisionPlan : List (String × String) := [("/p/src/a", "/p/src/d/z")]

/-- A file whose only specifier is the external package name `vitest`. -/
def externalOnlyFs : Fsys :=
  ⟨[("/p/src/t.ts", [Stmt.fromStmt StmtKind.imp "x" "vitest"])], ["/p", "/p/src"]⟩

/-- A tiny directory listing for exercising the planner. -/
def sampleTree : List DirTree := [DirTree.node "a" [DirTree.node "b" []]]

/-- A file system for exercising the fatal checks of `main`: a regular file
and a directory exist at the root. -/
def mainCheckFs : Fsys := ⟨[("/w/notes.txt", [])], ["/w", "/w/pkg"]⟩

/-- The finite universe of paths a file system mentions. -/
def univF (fs : Fsys) : Finset String := (filePaths fs ++ fs.dirs).toFinset

/-- The traversal result on `barrelFs`: both files reachable, none of them
directly imported, and the re-export-only list empty. -/
def barrelResult : UsedResult := ⟨["/p/src/sub/index.ts", "/p/src/index.ts"], [], []⟩

/-- Whether a statement gives the rewriter nothing to match: it is not a
from-statement, or its specifier is not relative, or its resolved path has
no plan key as a string prefix. -/
def stmtHasNoPlanMatch (fs : Fsys) (plan : List (String × String)) (dir : String) :
    Stmt → Bool
  | Stmt.fromStmt _ _ spec =>
    if strStartsWith spec "." || strStartsWith spec "/" then
      plan.all (fun e => !(strStartsWith (resolveImportPath fs dir spec) e.1))
    else true
  | Stmt.other => true

/-!
Claim theorems.
-/

/-- Claim C1 (code evaluated at the failing input): in the example package,
both specifiers resolved in-package before the rename; the rewriter, which
runs after the physical rename, turns `./a/util` in the entry file into
`./x7k/util/index` — a specifier that no longer resolves at all — and
leaves `./b/helper` in the relocated util file untouched, where the claim
requires `./x7k/util` and `./m2p/helper`. -/
theorem rewriter_breaks_example_resolution :
    resolveAccepted pkgPreRename "/p" "/p/src" "./a/util" = some "/p/src/a/util.ts"
    ∧ resolveAccepted pkgPreRename "/p" "/p/src/a" "./b/helper" = some "/p/src/a/b/helper.ts"
    ∧ updateExportPaths pkgPostRename renamePlanAB "/p/src/index.ts"
        = ([Stmt.fromStmt StmtKind.imp "x" "./x7k/util/index"], true)
    ∧ resolveAccepted pkgPostRename "/p" "/p/src" "./x7k/util/index" = none
    ∧ updateExportPaths pkgPostRename renamePlanAB "/p/src/x7k/util.ts"
        = ([Stmt.fromStmt StmtKind.exp "*" "./b/helper"], false)
    ∧ resolveAccepted pkgPostRename "/p" "/p/src/x7k" "./b/helper" = none := by
  decide

/-- Claim C2, counterexample: `../shared` did resolve via index fallback
before the rename, but the rewritten specifier is `../q9z/index`, which
retains the index segment, not the claimed `../q9z`. -/
theorem rewrite_keeps_index_segment :
    resolveAccepted sharedPre "/p" "/p/src/sub" "../shared" = some "/p/src/shared/index.ts"
    ∧ rewriteSpec sharedPost renamePlanShared "/p/src/sub" "../shared" = ("../q9z/index", true)
    ∧ strEndsWith "../q9z/index" "/index" = true
    ∧ ("../q9z/index" : String) ≠ "../q9z" := by
  decide

/-- Claim C3, counterexample: the nested barrel `src/sub/index.ts` is
reachable, never directly imported and is not the entry file, yet
`reExportedFiles` is empty, because the script excludes every path ending
in `index.ts`, not just the entry. -/
theorem reExportOnly_misses_nested_barrel :
    findUsedFiles barrelFs "/p" 10
      = some ⟨["/p/src/sub/index.ts", "/p/src/index.ts"], [], []⟩
    ∧ "/p/src/sub/index.ts" ≠ entryPoint "/p" := by
  decide

/-- Claim C4, counterexample: a named import (`import` with a braced
binding) of an in-package module that resolves is classified by the claim
as a direct import but is not matched by the script's regex, whose first
post-keyword character may not be an open brace. -/
theorem named_import_not_direct :
    claimedDirectBinding "\x7b a \x7d" = true
    ∧ resolveAccepted namedImportFs "/p" "/p/src" "./m" = some "/p/src/m.ts"
    ∧ extractImports namedImportFs "/p" "/p/src/main.ts" = ([], []) := by
  decide

/-- Claim C5, counterexample: the acceptance test is a string-prefix check
against the package root, so a file in the sibling package `pkg2` is
accepted when resolving from `pkg`, although it does not lie within the
package root. -/
theorem resolver_accepts_sibling_package :
    resolveAccepted siblingRootFs "/w/pkg" "/w/pkg/src" "../../pkg2/secret.ts"
      = some "/w/pkg2/secret.ts"
    ∧ underneathDir "/w/pkg" "/w/pkg2/secret.ts" = false := by
  decide

/-- Claim C10, counterexample: the file's only specifier resolves to
`/p/src/ab/x.ts`, which is not underneath the only plan key `/p/src/a`,
yet the plan key is a string prefix of it, so the rewriter modifies the
statement and sets the flag that triggers the write. -/
theorem prefix_collision_forces_write :
    resolveImportPath collisionFs "/p/src" "./ab/x" = "/p/src/ab/x.ts"
    ∧ underneathDir "/p/src/a" "/p/src/ab/x.ts" = false
    ∧ updateExportPaths collisionFs collisionPlan "/p/src/main.ts"
        = ([Stmt.fromStmt StmtKind.imp "x" "./d/ab/x"], true) := by
  decide

/-- Claim C7: the Directory Rename Planner is a pure function of the
directory tree and the starting counter, so two runs over an identical tree
with an identical starting counter produce identical rename maps — same
keys, same values, same order. -/
theorem planner_deterministic :
    ∀ (root : String) (t1 t2 : List DirTree) (i1 i2 : Nat),
      t1 = t2 → i1 = i2 →
      anonymizeDirectories root t1 [] i1 = anonymizeDirectories root t2 [] i2 := by
  intro root t1 t2 i1 i2 h1 h2
  rw [h1, h2]

/-- Witness for the planner determinism claim at a concrete tree. -/
theorem planner_deterministic_witness :
    anonymizeDirectories "/p/src" sampleTree [] 0
      = anonymizeDirectories "/p/src" sampleTree [] 0 :=
  planner_deterministic "/p/src" sampleTree sampleTree 0 0 rfl rfl

/-!
Helper lemmas about the path model.
-/

/-- A plain segment (the shape of a file-name segment such as the index
file name) passes through one collapse step by being appended. -/
theorem collapseStep_plain (acc : List String) (s : String)
    (h1 : s ≠ "") (h2 : s ≠ ".") (h3 : s ≠ "..") :
    collapseStep acc s = acc ++ [s] := by
  rw [collapseStep, if_neg (by simp [h1, h2]), if_neg h3]

/-- Collapsing a segment list that ends in a plain segment keeps that
segment last. -/
theorem collapseSegs_append_plain (l : List String) (s : String)
    (h1 : s ≠ "") (h2 : s ≠ ".") (h3 : s ≠ "..") :
    collapseSegs (l ++ [s]) = collapseSegs l ++ [s] := by
  rw [collapseSegs, List.foldl_append, List.foldl_cons, List.foldl_nil,
    collapseStep_plain _ _ h1 h2 h3, collapseSegs]

/-- Joining a nonempty tail keeps the head in front of a slash. -/
theorem joinSegs_cons_ne (a : String) (t : List String) (h : t ≠ []) :
    joinSegs (a :: t) = a ++ "/" ++ joinSegs t := by
  cases t with
  | nil => exact absurd rfl h
  | cons b u => rfl

/-- The last segment's characters are a suffix of the joined string. -/
theorem suffix_joinSegs_last (l : List String) (s : String) :
    s.data <:+ (joinSegs (l ++ [s])).data := by
  induction l with
  | nil => simp [joinSegs]
  | cons a l ih =>
    rw [List.cons_append, joinSegs_cons_ne a (l ++ [s]) (by simp), String.data_append]
    exact ih.trans (List.suffix_append _ _)

/-- The entry-file path of any package root ends in the index file name. -/
theorem strEndsWith_entryPoint (root : String) :
    strEndsWith (entryPoint root) "index.ts" = true := by
  have key : ∀ b : String, strEndsWith (pjoin b "index.ts") "index.ts" = true := by
    intro b
    rw [strEndsWith, List.isSuffixOf_iff_suffix, pjoin,
      show splitSegs "index.ts" = ["index.ts"] from rfl,
      collapseSegs_append_plain _ _ (by decide) (by decide) (by decide),
      renderAbs, String.data_append]
    exact (suffix_joinSegs_last _ _).trans (List.suffix_append _ _)
  exact key (pjoin root "src")

/-- Claim C3 as amended: after the traversal, `reExportedFiles` equals the
reachable files that never appear in the directly-imported accumulator and
whose path ends in `.ts` but not in `index.ts` (a filter that in particular
excludes the entry file and every other barrel file); consequently it is a
subset of the reachable files and excludes the entry file. -/
theorem reExportOnly_characterization :
    ∀ (fs : Fsys) (root : String) (fuel : Nat) (res : UsedResult),
      findUsedFiles fs root fuel = some res →
      res.reExported = res.used.filter (fun f =>
          decide (f ∉ res.direct) && !(strEndsWith f "index.ts") && strEndsWith f ".ts")
      ∧ res.reExported ⊆ res.used
      ∧ entryPoint root ∉ res.reExported := by
  intro fs root fuel res h
  rw [findUsedFiles] at h
  split at h
  · split at h
    · exact absurd h (by simp)
    · rename_i used direct heq
      injection h with h
      subst h
      refine ⟨rfl, List.filter_subset' _, ?_⟩
      intro hmem
      have hp := (List.mem_filter.mp hmem).2
      rw [strEndsWith_entryPoint] at hp
      simp at hp
  · injection h with h
    subst h
    exact ⟨rfl, by intro x hx; exact hx, by simp⟩

/-- Witness for the amended re-export-only characterization on the barrel
package. -/
theorem reExportOnly_characterization_witness :
    barrelResult.reExported = barrelResult.used.filter (fun f =>
        decide (f ∉ barrelResult.direct) && !(strEndsWith f "index.ts")
          && strEndsWith f ".ts")
    ∧ barrelResult.reExported ⊆ barrelResult.used
    ∧ entryPoint "/p" ∉ barrelResult.reExported :=
  reExportOnly_characterization barrelFs "/p" 10 barrelResult (by decide)

/-- Claim C4 as amended: the Reference Extractor's direct classification
holds exactly of an import-from statement whose binding text begins with
neither an open brace nor a star and is nonempty — default-form imports —
so named-only imports are excluded along with namespace and bare
side-effect imports; the specifier must be relative, not scope-marked, and
must resolve to an accepted in-package path. -/
theorem direct_classification_characterization :
    ∀ (fs : Fsys) (root fp p : String),
      p ∈ (extractImports fs root fp).1 ↔
        existsAnyF fs fp = true ∧ ∃ b spec,
          Stmt.fromStmt StmtKind.imp b spec ∈ readStmts fs fp
          ∧ strStartsWith b "\x7b" = false ∧ strStartsWith b "*" = false ∧ b ≠ ""
          ∧ strStartsWith spec "@" = false
          ∧ (strStartsWith spec "." = true ∨ strStartsWith spec "/" = true)
          ∧ resolveAccepted fs root (dirnameP fp) spec = some p := by
  intro fs root fp p
  rw [extractImports]
  split
  · rename_i hex
    simp only [List.mem_filterMap]
    constructor
    · rintro ⟨s, hs, hsome⟩
      cases s with
      | other => exact absurd hsome (by simp)
      | fromStmt k b spec =>
        cases k with
        | exp => exact absurd hsome (by simp)
        | imp =>
          rw [show (match Stmt.fromStmt StmtKind.imp b spec with
              | Stmt.fromStmt StmtKind.imp b spec =>
                if matchesDirectBinding b && isRelevantSpec spec then
                  resolveAccepted fs root (dirnameP fp) spec
                else none
              | _ => none) =
              (if matchesDirectBinding b && isRelevantSpec spec then
                resolveAccepted fs root (dirnameP fp) spec
              else none) from rfl] at hsome
          split at hsome
          · rename_i hcond
            simp only [matchesDirectBinding, isRelevantSpec, Bool.and_eq_true,
              Bool.not_eq_true', Bool.or_eq_true, decide_eq_false_iff_not] at hcond
            exact ⟨hex, b, spec, hs, hcond.1.1.1, hcond.1.1.2, hcond.1.2,
              hcond.2.1, hcond.2.2, hsome⟩
          · exact absurd hsome (by simp)
    · rintro ⟨-, b, spec, hs, h1, h2, h3, h4, h5, h6⟩
      refine ⟨Stmt.fromStmt StmtKind.imp b spec, hs, ?_⟩
      have hcond : (matchesDirectBinding b && isRelevantSpec spec) = true := by
        simp only [matchesDirectBinding, isRelevantSpec, Bool.and_eq_true,
          Bool.not_eq_true', Bool.or_eq_true, decide_eq_false_iff_not]
      
        exact ⟨⟨⟨h1, h2⟩, h3⟩, h4, h5⟩
      simpa [hcond] using h6
  · rename_i hex
    simp only [Bool.not_eq_true] at hex
    simp [hex]

/-- Claim C5 as amended: the resolver uses the specifier as given exactly
when it already ends in the implementation-file extension (no existence
check), otherwise the specifier plus `.ts` when that exists, otherwise the
specifier plus the index file name; an accepted path always exists on disk
and has the normalized package root as a string prefix — a check that also
admits sibling directories whose name extends the root's last segment. -/
theorem resolver_candidate_order :
    ∀ (fs : Fsys) (root dir spec p : String),
      resolveAccepted fs root dir spec = some p →
      existsAnyF fs p = true
      ∧ strStartsWith p (normalizeP root) = true
      ∧ (strEndsWith spec ".ts" = true → p = normalizeP (resolveP dir spec))
      ∧ (strEndsWith spec ".ts" = false →
          existsAnyF fs (resolveP dir (spec ++ ".ts")) = true →
          p = normalizeP (resolveP dir (spec ++ ".ts")))
      ∧ (strEndsWith spec ".ts" = false →
          existsAnyF fs (resolveP dir (spec ++ ".ts")) = false →
          p = normalizeP (resolveP dir (spec ++ "/index.ts"))) := by
  intro fs root dir spec p h
  rw [resolveAccepted] at h
  split at h
  · rename_i hc
    injection h with h
    subst h
    refine ⟨hc.2, hc.1, ?_, ?_, ?_⟩
    · intro hts
      rw [resolveImportPath, if_pos hts]
    · intro hts hx
      rw [resolveImportPath, if_neg (by simp [hts])]
      simp only [hx, if_true]
    · intro hts hx
      rw [resolveImportPath, if_neg (by simp [hts])]
      simp only [hx]
      rw [if_neg (by simp)]
  · exact absurd h (by simp)

/-- Witness for the amended resolver contract at the sibling-package
input. -/
theorem resolver_candidate_order_witness :
    existsAnyF siblingRootFs "/w/pkg2/secret.ts" = true
    ∧ strStartsWith "/w/pkg2/secret.ts" (normalizeP "/w/pkg") = true
    ∧ (strEndsWith "../../pkg2/secret.ts" ".ts" = true →
        "/w/pkg2/secret.ts" = normalizeP (resolveP "/w/pkg/src" "../../pkg2/secret.ts"))
    ∧ (strEndsWith "../../pkg2/secret.ts" ".ts" = false →
        existsAnyF siblingRootFs (resolveP "/w/pkg/src" ("../../pkg2/secret.ts" ++ ".ts")) = true →
        "/w/pkg2/secret.ts" = normalizeP (resolveP "/w/pkg/src" ("../../pkg2/secret.ts" ++ ".ts")))
    ∧ (strEndsWith "../../pkg2/secret.ts" ".ts" = false →
        existsAnyF siblingRootFs (resolveP "/w/pkg/src" ("../../pkg2/secret.ts" ++ ".ts")) = false →
        "/w/pkg2/secret.ts"
          = normalizeP (resolveP "/w/pkg/src" ("../../pkg2/secret.ts" ++ "/index.ts"))) :=
  resolver_candidate_order siblingRootFs "/w/pkg" "/w/pkg/src" "../../pkg2/secret.ts"
    "/w/pkg2/secret.ts" (by decide)

/-- Claim C8: a specifier that does not start with a dot or a slash is
returned byte-identical by the Reference Rewriter, whatever the rename plan
and the file-system state. -/
theorem external_specifiers_invariant :
    ∀ (fs : Fsys) (plan : List (String × String)) (fp : String) (n : Nat)
      (k : StmtKind) (b spec : String),
      (readStmts fs fp)[n]? = some (Stmt.fromStmt k b spec) →
      strStartsWith spec "." = false → strStartsWith spec "/" = false →
      ((updateExportPaths fs plan fp).1)[n]? = some (Stmt.fromStmt k b spec) := by
  intro fs plan fp n k b spec h h1 h2
  rw [updateExportPaths]
  split
  · simp only [List.map_map, List.getElem?_map, h, Option.map_some', Function.comp_apply,
      rewriteStmt, rewriteSpec, h1, h2, Bool.not_false, Bool.and_self, if_true]
  · exact h

/-- Witness for external-specifier invariance on a file importing only the
package `vitest`. -/
theorem external_specifiers_invariant_witness :
    ((updateExportPaths externalOnlyFs [("/p/src/a", "/p/src/b")] "/p/src/t.ts").1)[0]?
      = some (Stmt.fromStmt StmtKind.imp "x" "vitest") :=
  external_specifiers_invariant externalOnlyFs [("/p/src/a", "/p/src/b")] "/p/src/t.ts" 0
    StmtKind.imp "x" "vitest" (by decide) (by decide) (by decide)

/-- Claim C9: each fatal usage error of `main` — missing argument,
non-existent path, path not a directory — exits with code one before any
mutation appears in the trace, and the missing-argument exit happens with
no file-system activity at all, whatever the rest of the run would do. -/
theorem usage_errors_pre_mutation :
    ∀ (fs : Fsys) (cwd : String) (rest : List FsOp),
      mainModel none fs cwd rest = ⟨some 1, []⟩
      ∧ (∀ p, existsAnyF fs (absOf cwd p) = false →
          (mainModel (some p) fs cwd rest).exitCode = some 1
          ∧ FsOp.mutate ∉ (mainModel (some p) fs cwd rest).ops)
      ∧ (∀ p, existsAnyF fs (absOf cwd p) = true → absOf cwd p ∉ fs.dirs →
          (mainModel (some p) fs cwd rest).exitCode = some 1
          ∧ FsOp.mutate ∉ (mainModel (some p) fs cwd rest).ops) := by
  intro fs cwd rest
  refine ⟨rfl, ?_, ?_⟩
  · intro p hp
    simp [mainModel, hp]
  · intro p hp hdir
    simp [mainModel, hp, hdir]

/-- Witness for the pre-mutation usage errors, with a deliberately
mutation-bearing continuation trace. -/
theorem usage_errors_pre_mutation_witness :
    mainModel none mainCheckFs "/w" [FsOp.mutate] = ⟨some 1, []⟩
    ∧ ((mainModel (some "missing") mainCheckFs "/w" [FsOp.mutate]).exitCode = some 1
        ∧ FsOp.mutate ∉ (mainModel (some "missing") mainCheckFs "/w" [FsOp.mutate]).ops)
    ∧ ((mainModel (some "notes.txt") mainCheckFs "/w" [FsOp.mutate]).exitCode = some 1
        ∧ FsOp.mutate ∉ (mainModel (some "notes.txt") mainCheckFs "/w" [FsOp.mutate]).ops) := by
  obtain ⟨h1, h2, h3⟩ := usage_errors_pre_mutation mainCheckFs "/w" [FsOp.mutate]
  exact ⟨h1, h2 "missing" (by decide), h3 "notes.txt" (by decide) (by decide)⟩

/-- Claim C10 as amended: when no relative specifier of a file resolves to
a path that has any old-directory key of the rename plan as a *string
prefix* (the test the script actually performs, which is weaker than
directory containment), the Reference Rewriter leaves every statement
unchanged and the modified flag stays clear, so no write occurs. -/
theorem no_prefix_match_no_write :
    ∀ (fs : Fsys) (plan : List (String × String)) (fp : String),
      (readStmts fs fp).all (stmtHasNoPlanMatch fs plan (dirnameP fp)) = true →
      updateExportPaths fs plan fp = (readStmts fs fp, false) := by
  intro fs plan fp h
  rw [List.all_eq_true] at h
  have key : ∀ s ∈ readStmts fs fp,
      rewriteStmt fs plan (dirnameP fp) s = (s, false) := by
    intro s hs
    have hns := h s hs
    cases s with
    | other => rfl
    | fromStmt k b spec =>
      rw [rewriteStmt]
      suffices hrw : rewriteSpec fs plan (dirnameP fp) spec = (spec, false) by
        rw [hrw]
      rw [stmtHasNoPlanMatch] at hns
      rw [rewriteSpec]
      split
      · rfl
      · rename_i hcond
        simp only [Bool.and_eq_true, Bool.not_eq_true', not_and_or,
          Bool.not_eq_false] at hcond
        rw [if_pos (Bool.or_eq_true _ _ |>.mpr hcond)] at hns
        rw [List.all_eq_true] at hns
        have hfind : plan.find?
            (fun e => strStartsWith (resolveImportPath fs (dirnameP fp) spec) e.1) = none := by
          rw [List.find?_eq_none]
          intro e he
          have he2 := hns e he
          simp only [Bool.not_eq_true'] at he2
          simp [he2]
        simp [hfind]
  rw [updateExportPaths]
  split
  · show (List.map Prod.fst ((readStmts fs fp).map (rewriteStmt fs plan (dirnameP fp))),
        ((readStmts fs fp).map (rewriteStmt fs plan (dirnameP fp))).any Prod.snd)
      = (readStmts fs fp, false)
    rw [Prod.mk.injEq]
    refine ⟨?_, ?_⟩
    · rw [List.map_map,
        show (Prod.fst ∘ rewriteStmt fs plan (dirnameP fp)) = (fun s =>
          (rewriteStmt fs plan (dirnameP fp) s).1) from rfl,
        List.map_congr_left (fun s hs => by rw [key s hs])]
      simp
    · rw [List.any_eq_false]
      intro x hx
      rw [List.mem_map] at hx
      obtain ⟨s, hs, hse⟩ := hx
      rw [key s hs] at hse
      rw [← hse]
      simp
  · rfl

/-- Witness for the amended no-write property on a file whose only
specifier is external. -/
theorem no_prefix_match_no_write_witness :
    updateExportPaths externalOnlyFs collisionPlan "/p/src/t.ts"
      = (readStmts externalOnlyFs "/p/src/t.ts", false) :=
  no_prefix_match_no_write externalOnlyFs collisionPlan "/p/src/t.ts" (by decide)

/-!
Termination of the dependency-graph traversal.
-/

/-- Every path the Reference Extractor returns exists, hence lies in the
finite path universe of the file system: both lists only collect outputs of
the acceptance filter. -/
theorem extractImports_mem_univ (fs : Fsys) (root fp p : String)
    (h : p ∈ (extractImports fs root fp).1 ∨ p ∈ (extractImports fs root fp).2) :
    p ∈ univF fs := by
  have hacc : ∀ dir spec q, resolveAccepted fs root dir spec = some q → q ∈ univF fs := by
    intro dir spec q hq
    rw [resolveAccepted] at hq
    split at hq
    · rename_i hc
      injection hq with hq
      subst hq
      have := hc.2
      rw [existsAnyF, decide_eq_true_iff] at this
      rw [univF, List.mem_toFinset, List.mem_append]
      exact this
    · exact absurd hq (by simp)
  rw [extractImports] at h
  split at h
  · simp only [List.mem_filterMap] at h
    rcases h with ⟨s, -, hsome⟩ | ⟨s, -, hsome⟩ <;>
      (cases s with
       | other => exact absurd hsome (by simp)
       | fromStmt k b spec =>
         cases k <;>
           simp only [Option.ite_none_right_eq_some] at hsome <;>
           first
             | exact hacc _ _ _ hsome.2
             | exact absurd hsome (by simp))
  · simp at h

/-- Unfolding equation for one step of the traversal loop. -/
theorem findUsedLoop_succ_cons (fs : Fsys) (root : String) (f : Nat) (h : String)
    (t used direct : List String) :
    findUsedLoop fs root (f + 1) (h :: t) used direct
      = if h ∈ used then findUsedLoop fs root f t used direct
        else
          findUsedLoop fs root f
            (t ++ (extractImports fs root h).1.filter (fun x => decide (x ∉ h :: used))
              ++ (extractImports fs root h).2.filter (fun x => decide (x ∉ h :: used)))
            (h :: used) (direct ++ (extractImports fs root h).1) := rfl

/-- The traversal loop terminates from every state whose queue only holds
paths of the finite universe: induction on the number of universe paths not
yet visited, with an inner induction on the queue; a queue head already
visited shortens the queue, and a fresh head strictly shrinks the
unvisited part of the universe, so some fuel always suffices. -/
theorem findUsedLoop_terminates :
    ∀ (n : Nat) (fs : Fsys) (root : String) (used : List String),
      (univF fs \ used.toFinset).card ≤ n →
      ∀ (queue : List String), (∀ q ∈ queue, q ∈ univF fs) →
      ∀ (direct : List String),
        ∃ fuel res, findUsedLoop fs root fuel queue used direct = some res := by
  intro n
  induction n with
  | zero =>
    intro fs root used hcard queue
    induction queue with
    | nil => exact fun _ direct => ⟨1, (used, direct), rfl⟩
    | cons h t ih =>
      intro hq direct
      have hhu : h ∈ univF fs := hq h (List.mem_cons_self h t)
      have hmem : h ∈ used := by
        by_contra hnot
        have hin : h ∈ univF fs \ used.toFinset :=
          Finset.mem_sdiff.mpr ⟨hhu, fun hc => hnot (List.mem_toFinset.mp hc)⟩
        have hpos : 0 < (univF fs \ used.toFinset).card := Finset.card_pos.mpr ⟨h, hin⟩
        omega
      obtain ⟨f, r, hf⟩ := ih (fun q hq2 => hq q (List.mem_cons_of_mem h hq2)) direct
      exact ⟨f + 1, r, by rw [findUsedLoop_succ_cons, if_pos hmem]; exact hf⟩
  | succ n ihn =>
    intro fs root used hcard queue
    induction queue with
    | nil => exact fun _ direct => ⟨1, (used, direct), rfl⟩
    | cons h t ih =>
      intro hq direct
      by_cases hmem : h ∈ used
      · obtain ⟨f, r, hf⟩ := ih (fun q hq2 => hq q (List.mem_cons_of_mem h hq2)) direct
        exact ⟨f + 1, r, by rw [findUsedLoop_succ_cons, if_pos hmem]; exact hf⟩
      · have hhu : h ∈ univF fs := hq h (List.mem_cons_self h t)
        have hcard2 : (univF fs \ (h :: used).toFinset).card ≤ n := by
          have hsd : univF fs \ (h :: used).toFinset
              = (univF fs \ used.toFinset).erase h := by
            rw [List.toFinset_cons, Finset.sdiff_insert]
          have hlt : ((univF fs \ used.toFinset).erase h).card
              < (univF fs \ used.toFinset).card :=
            Finset.card_erase_lt_of_mem
              (Finset.mem_sdiff.mpr ⟨hhu, fun hc => hmem (List.mem_toFinset.mp hc)⟩)
          rw [hsd]
          omega
        have hq2 : ∀ q ∈ (t ++ (extractImports fs root h).1.filter
              (fun x => decide (x ∉ h :: used))
            ++ (extractImports fs root h).2.filter (fun x => decide (x ∉ h :: used))),
            q ∈ univF fs := by
          intro q hqm
          rcases List.mem_append.mp hqm with hqm | hqm
          · rcases List.mem_append.mp hqm with hqm | hqm
            · exact hq q (List.mem_cons_of_mem h hqm)
            · exact extractImports_mem_univ fs root h q (Or.inl (List.mem_filter.mp hqm).1)
          · exact extractImports_mem_univ fs root h q (Or.inr (List.mem_filter.mp hqm).1)
        obtain ⟨f, r, hf⟩ := ihn fs root (h :: used) hcard2 _ hq2
          (direct ++ (extractImports fs root h).1)
        exact ⟨f + 1, r, by rw [findUsedLoop_succ_cons, if_neg hmem]; exact hf⟩

/-- Claim C6: for every file-system state and package root — in particular
for trees whose import and re-export relation is cyclic — the breadth-first
traversal of the Dependency Graph Builder terminates: some fuel makes the
embedded loop return, because a file already in the visited set is never
re-processed and every fresh file shrinks the finite set of unvisited
paths. -/
theorem traversal_terminates :
    ∀ (fs : Fsys) (root : String), ∃ fuel res, findUsedFiles fs root fuel = some res := by
  intro fs root
  by_cases hex : existsAnyF fs (entryPoint root) = true
  · have hq : ∀ q ∈ [entryPoint root], q ∈ univF fs := by
      intro q hqm
      rw [List.mem_singleton] at hqm
      subst hqm
      rw [existsAnyF, decide_eq_true_iff] at hex
      rw [univF, List.mem_toFinset, List.mem_append]
      exact hex
    obtain ⟨f, ⟨u, d⟩, hf⟩ := findUsedLoop_terminates (univF fs).card fs root []
      (by simp) [entryPoint root] hq []
    refine ⟨f, ⟨u, d, u.filter (fun x =>
      decide (x ∉ d) && !(strEndsWith x "index.ts") && strEndsWith x ".ts")⟩, ?_⟩
    rw [findUsedFiles, if_pos hex, hf]
  · exact ⟨0, ⟨[], [], []⟩, by rw [findUsedFiles, if_neg hex]⟩

/-!
Lemmas about splitting, joining and collapsing path segments, used to
characterize the rewriter's output form on index-fallback specifiers.
-/

/-- A string is its own character data made back into a string. -/
theorem strMk_data (s : String) : String.mk s.data = s := by
  cases s
  rfl

/-- A character list without slashes splits into one pending piece. -/
theorem splitSlashAux_no_slash (cs : List Char) (acc : List Char) (h : '/' ∉ cs) :
    splitSlashAux cs acc = [acc.reverse ++ cs] := by
  induction cs generalizing acc with
  | nil => simp [splitSlashAux]
  | cons c rest ih =>
    rw [splitSlashAux,
      if_neg (fun hc => h (List.mem_cons.mpr (Or.inl hc.symm))),
      ih (c :: acc) (fun hm => h (List.mem_cons_of_mem c hm))]
    simp

/-- Splitting distributes over a slash between two character lists. -/
theorem splitSlashAux_append_slash (xs : List Char) (acc ys : List Char) :
    splitSlashAux (xs ++ '/' :: ys) acc = splitSlashAux xs acc ++ splitSlashAux ys [] := by
  induction xs generalizing acc with
  | nil => simp [splitSlashAux]
  | cons c rest ih =>
    by_cases hc : c = '/'
    · subst hc
      rw [List.cons_append, splitSlashAux, if_pos rfl, ih, splitSlashAux, if_pos rfl,
        List.cons_append]
    · rw [List.cons_append, splitSlashAux, if_neg hc, ih, splitSlashAux, if_neg hc]

/-- Split of a slash-free string. -/
theorem splitSegs_no_slash (s : String) (h : '/' ∉ s.data) : splitSegs s = [s] := by
  rw [splitSegs, splitSlashAux_no_slash s.data [] h]
  simp [strMk_data]

/-- Split distributes over a slash between two strings. -/
theorem splitSegs_append_slash (a b : String) :
    splitSegs (a ++ "/" ++ b) = splitSegs a ++ splitSegs b := by
  have hd : (a ++ "/" ++ b).data = a.data ++ '/' :: b.data := by
    rw [String.data_append, String.data_append, List.append_assoc]
    rfl
  rw [splitSegs, hd, splitSlashAux_append_slash, List.map_append]
  rfl

/-- Pieces produced by the splitter are slash-free. -/
theorem mem_splitSlashAux_no_slash (cs : List Char) :
    ∀ (acc : List Char), '/' ∉ acc → ∀ p ∈ splitSlashAux cs acc, '/' ∉ p := by
  induction cs with
  | nil =>
    intro acc hacc p hp
    rw [splitSlashAux] at hp
    simp only [List.mem_singleton] at hp
    subst hp
    simpa using hacc
  | cons c rest ih =>
    intro acc hacc p hp
    rw [splitSlashAux] at hp
    by_cases hc : c = '/'
    · rw [if_pos hc] at hp
      rcases List.mem_cons.mp hp with h1 | h2
      · subst h1
        simpa using hacc
      · exact ih [] (by simp) p h2
    · rw [if_neg hc] at hp
      refine ih (c :: acc) ?_ p hp
      intro hm
      rcases List.mem_cons.mp hm with h1 | h1
      · exact hc h1.symm
      · exact hacc h1

/-- Segments of a split string are slash-free. -/
theorem mem_splitSegs_no_slash (s t : String) (ht : t ∈ splitSegs s) : '/' ∉ t.data := by
  rw [splitSegs] at ht
  rcases List.mem_map.mp ht with ⟨p, hp, he⟩
  subst he
  exact mem_splitSlashAux_no_slash s.data [] (by simp) p hp

/-- Every segment of a collapse comes from its input. -/
theorem mem_collapseSegs (l : List String) (s : String) (h : s ∈ collapseSegs l) : s ∈ l := by
  suffices haux : ∀ (acc : List String), s ∈ List.foldl collapseStep acc l → s ∈ acc ∨ s ∈ l by
    rcases haux [] h with h1 | h1
    · simp at h1
    · exact h1
  clear h
  induction l with
  | nil => exact fun acc h2 => Or.inl h2
  | cons x l ih =>
    intro acc h2
    rw [List.foldl_cons] at h2
    rcases ih (collapseStep acc x) h2 with h3 | h3
    · rw [collapseStep] at h3
      split at h3
      · exact Or.inl h3
      · split at h3
        · exact Or.inl (List.dropLast_subset acc h3)
        · rcases List.mem_append.mp h3 with h4 | h4
          · exact Or.inl h4
          · simp only [List.mem_singleton] at h4
            subst h4
            exact Or.inr (List.mem_cons_self _ _)
    · exact Or.inr (List.mem_cons_of_mem x h3)

/-- Collapse outputs contain no empty, dot or dot-dot segments. -/
theorem mem_collapseSegs_plain (l : List String) (s : String) (h : s ∈ collapseSegs l) :
    s ≠ "" ∧ s ≠ "." ∧ s ≠ ".." := by
  suffices haux : ∀ (acc : List String), (∀ t ∈ acc, t ≠ "" ∧ t ≠ "." ∧ t ≠ "..") →
      ∀ t ∈ List.foldl collapseStep acc l, t ≠ "" ∧ t ≠ "." ∧ t ≠ ".." by
    exact haux [] (by simp) s h
  clear h
  induction l with
  | nil => exact fun acc hacc t ht => hacc t ht
  | cons x l ih =>
    intro acc hacc t ht
    rw [List.foldl_cons] at ht
    refine ih (collapseStep acc x) ?_ t ht
    intro u hu
    rw [collapseStep] at hu
    split at hu
    · exact hacc u hu
    · split at hu
      · exact hacc u (List.dropLast_subset acc hu)
      · rcases List.mem_append.mp hu with h4 | h4
        · exact hacc u h4
        · simp only [List.mem_singleton] at h4
          subst h4
          rename_i h5 h6
          exact ⟨fun he => h5 (Or.inl he), fun he => h5 (Or.inr he), h6⟩

/-- Folding the collapse step over plain segments appends them. -/
theorem foldl_collapseStep_plain (l : List String)
    (h : ∀ s ∈ l, s ≠ "" ∧ s ≠ "." ∧ s ≠ "..") :
    ∀ (acc : List String), List.foldl collapseStep acc l = acc ++ l := by
  induction l with
  | nil => intro acc; simp
  | cons x l ih =>
    intro acc
    have hx := h x (List.mem_cons_self x l)
    rw [List.foldl_cons, collapseStep_plain acc x hx.1 hx.2.1 hx.2.2,
      ih (fun s hs => h s (List.mem_cons_of_mem x hs)) (acc ++ [x])]
    simp

/-- Collapse is the identity on plain segment lists. -/
theorem collapseSegs_plain_id (l : List String)
    (h : ∀ s ∈ l, s ≠ "" ∧ s ≠ "." ∧ s ≠ "..") : collapseSegs l = l := by
  have := foldl_collapseStep_plain l h []
  simpa [collapseSegs] using this

/-- Collapse ignores a leading empty segment. -/
theorem collapseSegs_cons_empty (l : List String) :
    collapseSegs ("" :: l) = collapseSegs l := by
  rw [collapseSegs, collapseSegs, List.foldl_cons, collapseStep, if_pos (Or.inl rfl)]

/-- Split-join inverse on slash-free segment lists. -/
theorem splitSegs_joinSegs (M : List String) (h : ∀ s ∈ M, '/' ∉ s.data) (hne : M ≠ []) :
    splitSegs (joinSegs M) = M := by
  induction M with
  | nil => exact absurd rfl hne
  | cons x M ih =>
    cases M with
    | nil => exact splitSegs_no_slash x (h x (List.mem_cons_self x []))
    | cons y t =>
      rw [joinSegs_cons_ne x (y :: t) (by simp), splitSegs_append_slash,
        splitSegs_no_slash x (h x (List.mem_cons_self x (y :: t))),
        ih (fun s hs => h s (List.mem_cons_of_mem x hs)) (by simp)]
      rfl

/-- Splitting a rendered absolute path yields a leading empty segment and
the original segments. -/
theorem splitSegs_renderAbs (M : List String) (h : ∀ s ∈ M, '/' ∉ s.data) (hne : M ≠ []) :
    splitSegs (renderAbs M) = "" :: M := by
  have hre : renderAbs M = ("" : String) ++ "/" ++ joinSegs M := by
    rw [renderAbs]
    rfl
  rw [hre, splitSegs_append_slash, splitSegs_joinSegs M h hne]
  rfl

/-- The collapsed segments of a rendered plain slash-free list are the list
itself. -/
theorem collapseSegs_splitSegs_renderAbs (M : List String)
    (hfree : ∀ s ∈ M, '/' ∉ s.data)
    (hplain : ∀ s ∈ M, s ≠ "" ∧ s ≠ "." ∧ s ≠ "..") (hne : M ≠ []) :
    collapseSegs (splitSegs (renderAbs M)) = M := by
  rw [splitSegs_renderAbs M hfree hne, collapseSegs_cons_empty,
    collapseSegs_plain_id M hplain]

/-- Stripping a list's own extension leaves exactly the extension. -/
theorem dropCommonSegs_self_append (K M : List String) :
    dropCommonSegs K (K ++ M) = ([], M) := by
  induction K with
  | nil => cases M <;> rfl
  | cons a K ih =>
    rw [List.cons_append, dropCommonSegs, if_pos rfl]
    exact ih

/-- The final segment survives common-prefix stripping when the source list
never mentions it. -/
theorem dropCommonSegs_snd_last (f : List String) (x : String) (hx : x ∉ f) :
    ∀ (t : List String), ∃ r, (dropCommonSegs f (t ++ [x])).2 = r ++ [x] := by
  induction f with
  | nil => exact fun t => ⟨t, rfl⟩
  | cons a f ih =>
    intro t
    cases t with
    | nil =>
      have hax : a ≠ x := fun he => hx (List.mem_cons.mpr (Or.inl he.symm))
      rw [List.nil_append, dropCommonSegs, if_neg hax]
      exact ⟨[], rfl⟩
    | cons b t =>
      by_cases hab : a = b
      · subst hab
        rw [List.cons_append, dropCommonSegs, if_pos rfl]
        exact ih (fun hm => hx (List.mem_cons_of_mem a hm)) t
      · rw [List.cons_append, dropCommonSegs, if_neg hab]
        exact ⟨b :: t, rfl⟩

/-- Joining with an appended final segment. -/
theorem joinSegs_append_last (M : List String) (x : String) (hne : M ≠ []) :
    joinSegs (M ++ [x]) = joinSegs M ++ "/" ++ x := by
  induction M with
  | nil => exact absurd rfl hne
  | cons a M ih =>
    cases M with
    | nil => rfl
    | cons b t =>
      rw [List.cons_append, joinSegs_cons_ne a ((b :: t) ++ [x]) (by simp),
        joinSegs_cons_ne a (b :: t) (by simp), ih (by simp)]
      simp [String.append_assoc]

/-- A string ends with a suffix glued onto anything. -/
theorem strEndsWith_self_append (a suf : String) : strEndsWith (a ++ suf) suf = true := by
  rw [strEndsWith, List.isSuffixOf_iff_suffix, String.data_append]
  exact List.suffix_append a.data suf.data

/-- Suffixes are stable under prepending. -/
theorem strEndsWith_append_left (a b suf : String) (h : strEndsWith b suf = true) :
    strEndsWith (a ++ b) suf = true := by
  rw [strEndsWith, List.isSuffixOf_iff_suffix] at h ⊢
  rw [String.data_append]
  exact h.trans (List.suffix_append a.data b.data)

/-- Stripping the extension from a path ending in the index file name. -/
theorem stripSuffixStr_index_ts (A : String) :
    stripSuffixStr (A ++ "/index.ts") ".ts" = A ++ "/index" := by
  rw [stripSuffixStr, if_pos (strEndsWith_append_left A "/index.ts" ".ts" (by decide))]
  rw [String.data_append]
  have h9 : (("/index.ts" : String).data).length = 9 := rfl
  have h3 : ((".ts" : String).data).length = 3 := rfl
  rw [List.length_append, h9, h3, List.take_append_eq_append_take,
    List.take_of_length_le (by omega),
    show A.data.length + 9 - 3 - A.data.length = 6 by omega,
    show (("/index.ts" : String).data).take 6 = ("/index" : String).data from rfl,
    ← String.data_append, strMk_data]

/-- A path ending in the bare index segment does not end in the
implementation-file extension. -/
theorem not_strEndsWith_ts_of_index (B : String) :
    strEndsWith (B ++ "/index") ".ts" = false := by
  by_contra hc
  rw [Bool.not_eq_false, strEndsWith, List.isSuffixOf_iff_suffix] at hc
  obtain ⟨u, hu⟩ := hc
  have hdex : ("dex" : String).data <:+ (B ++ "/index").data := by
    rw [String.data_append]
    exact List.IsSuffix.trans (by decide) (List.suffix_append B.data ("/index" : String).data)
  obtain ⟨v, hv⟩ := hdex
  have heq : u ++ (".ts" : String).data = v ++ ("dex" : String).data := hu.trans hv.symm
  have hlen : u.length = v.length := by
    have hl := congrArg List.length heq
    rw [List.length_append, List.length_append,
      show ((".ts" : String).data).length = 3 from rfl,
      show (("dex" : String).data).length = 3 from rfl] at hl
    omega
  exact absurd (List.append_inj heq hlen).2 (by decide)

/-- Prefixes are stable under appending. -/
theorem strStartsWith_mono (s t pre : String) (h : strStartsWith s pre = true) :
    strStartsWith (s ++ t) pre = true := by
  rw [strStartsWith, List.isPrefixOf_iff_prefix] at h ⊢
  rw [String.data_append]
  exact h.trans (List.prefix_append s.data t.data)

/-- A string starting with a dot never starts with a slash, even after
appending. -/
theorem strStartsWith_dot_no_slash (s t : String) (h : strStartsWith s "." = true) :
    strStartsWith (s ++ t) "/" = false := by
  rw [strStartsWith, List.isPrefixOf_iff_prefix] at h
  obtain ⟨u, hu⟩ := h
  rw [strStartsWith, String.data_append, ← hu]
  simp [List.isPrefixOf]

/-- Claim C2 as amended: for every file system, rename plan, directory and
relative specifier with no explicit extension that resolves via the index
fallback, if a plan entry matches and its old path names an ancestor (or
the whole) of the resolved index file's directory segment-wise, and the
referencing file's directory has no segment named `index.ts`, then —
unless the specifier itself ends in `/index` or `/` — the rewriter rewrites
it to a specifier that still has no `.ts` extension but retains the index
segment (it ends in `/index`); i.e. the index segment is omitted only when
the original specifier ended in `/index` or `/`.  In the claim's example
`../shared` becomes `../q9z/index`, not the claimed `../q9z`. -/
theorem rewrite_index_fallback_form :
    ∀ (fs : Fsys) (dirMap : List (String × String)) (dir spec : String) (e : String × String),
      (strStartsWith spec "." = true ∨ strStartsWith spec "/" = true) →
      strEndsWith spec ".ts" = false →
      existsAnyF fs (resolveP dir (spec ++ ".ts")) = false →
      dirMap.find? (fun en => strStartsWith (resolveImportPath fs dir spec) en.1) = some e →
      pathSegs e.1 <+: (pathSegs (resolveImportPath fs dir spec)).dropLast →
      "index.ts" ∉ pathSegs dir →
      strEndsWith spec "/index" = false →
      strEndsWith spec "/" = false →
      (rewriteSpec fs dirMap dir spec).2 = true
      ∧ strEndsWith (rewriteSpec fs dirMap dir spec).1 "/index" = true
      ∧ strEndsWith (rewriteSpec fs dirMap dir spec).1 ".ts" = false := by
  intro fs dirMap dir spec e h1 h2 h3 h4 h5 h6 h7 h8
  simp only [pathSegs] at h5 h6
  have hR : resolveImportPath fs dir spec = resolveP dir (spec ++ "/index.ts") := by
    simp [resolveImportPath, h2, h3]
  have hslash2 : ("/" : String) ++ "index.ts" = "/index.ts" := rfl
  have hcat : spec ++ "/index.ts" = spec ++ "/" ++ "index.ts" := by
    rw [String.append_assoc, hslash2]
  have hsplitR : splitSegs (spec ++ "/index.ts") = splitSegs spec ++ ["index.ts"] := by
    rw [hcat, splitSegs_append_slash]
    rfl
  have hmain : ∃ L : List String, (∀ s ∈ L, '/' ∉ s.data)
      ∧ (∀ s ∈ L, s ≠ "" ∧ s ≠ "." ∧ s ≠ "..")
      ∧ resolveImportPath fs dir spec = renderAbs (L ++ ["index.ts"]) := by
    rcases h1 with hdot | hslh
    · refine ⟨collapseSegs (splitSegs dir ++ splitSegs spec), ?_, ?_, ?_⟩
      · intro s hs
        rcases List.mem_append.mp (mem_collapseSegs _ _ hs) with h | h
        · exact mem_splitSegs_no_slash dir s h
        · exact mem_splitSegs_no_slash spec s h
      · exact fun s hs => mem_collapseSegs_plain _ s hs
      · rw [hR, resolveP, if_neg (by simp [strStartsWith_dot_no_slash spec _ hdot]), pjoin,
          hsplitR, ← List.append_assoc,
          collapseSegs_append_plain _ "index.ts" (by decide) (by decide) (by decide)]
    · refine ⟨collapseSegs (splitSegs spec), ?_, ?_, ?_⟩
      · exact fun s hs => mem_splitSegs_no_slash spec s (mem_collapseSegs _ _ hs)
      · exact fun s hs => mem_collapseSegs_plain _ s hs
      · rw [hR, resolveP, if_pos (strStartsWith_mono spec _ "/" hslh), normalizeP, hsplitR,
          collapseSegs_append_plain _ "index.ts" (by decide) (by decide) (by decide)]
  obtain ⟨L, hLfree, hLplain, hRrender⟩ := hmain
  have hxfree : ('/' : Char) ∉ ("index.ts" : String).data := by decide
  have hxplain : ("index.ts" : String) ≠ "" ∧ ("index.ts" : String) ≠ "."
      ∧ ("index.ts" : String) ≠ ".." := by decide
  have hLXfree : ∀ s ∈ L ++ ["index.ts"], '/' ∉ s.data := by
    intro s hs
    rcases List.mem_append.mp hs with h | h
    · exact hLfree s h
    · simp only [List.mem_singleton] at h
      subst h
      exact hxfree
  have hLXplain : ∀ s ∈ L ++ ["index.ts"], s ≠ "" ∧ s ≠ "." ∧ s ≠ ".." := by
    intro s hs
    rcases List.mem_append.mp hs with h | h
    · exact hLplain s h
    · simp only [List.mem_singleton] at h
      subst h
      exact hxplain
  have hRsegs : collapseSegs (splitSegs (resolveImportPath fs dir spec)) = L ++ ["index.ts"] := by
    rw [hRrender]
    exact collapseSegs_splitSegs_renderAbs _ hLXfree hLXplain (by simp)
  rw [hRsegs, List.dropLast_concat] at h5
  obtain ⟨Lrest, hKL⟩ := h5
  have hLrest_sub : ∀ s ∈ Lrest, s ∈ L := by
    intro s hs
    rw [← hKL]
    exact List.mem_append.mpr (Or.inr hs)
  have hLRfree : ∀ s ∈ Lrest ++ ["index.ts"], '/' ∉ s.data := by
    intro s hs
    rcases List.mem_append.mp hs with h | h
    · exact hLfree s (hLrest_sub s h)
    · simp only [List.mem_singleton] at h
      subst h
      exact hxfree
  have hrel1 : relativeP e.1 (resolveImportPath fs dir spec)
      = joinSegs (Lrest ++ ["index.ts"]) := by
    rw [relativeP]
    simp only [hRsegs]
    rw [← hKL, List.append_assoc, dropCommonSegs_self_append]
    simp
  have hnew : pjoin e.2 (joinSegs (Lrest ++ ["index.ts"]))
      = renderAbs (collapseSegs (splitSegs e.2 ++ Lrest) ++ ["index.ts"]) := by
    rw [pjoin, splitSegs_joinSegs (Lrest ++ ["index.ts"]) hLRfree (by simp),
      ← List.append_assoc,
      collapseSegs_append_plain _ "index.ts" (by decide) (by decide) (by decide)]
  have hNfree : ∀ s ∈ collapseSegs (splitSegs e.2 ++ Lrest) ++ ["index.ts"], '/' ∉ s.data := by
    intro s hs
    rcases List.mem_append.mp hs with h | h
    · rcases List.mem_append.mp (mem_collapseSegs _ _ h) with h2a | h2a
      · exact mem_splitSegs_no_slash e.2 s h2a
      · exact hLfree s (hLrest_sub s h2a)
    · simp only [List.mem_singleton] at h
      subst h
      exact hxfree
  have hNplain : ∀ s ∈ collapseSegs (splitSegs e.2 ++ Lrest) ++ ["index.ts"],
      s ≠ "" ∧ s ≠ "." ∧ s ≠ ".." := by
    intro s hs
    rcases List.mem_append.mp hs with h | h
    · exact mem_collapseSegs_plain _ s h
    · simp only [List.mem_singleton] at h
      subst h
      exact hxplain
  obtain ⟨r, hr⟩ := dropCommonSegs_snd_last (collapseSegs (splitSegs dir)) "index.ts" h6
    (collapseSegs (splitSegs e.2 ++ Lrest))
  have hnr : relativeP dir (renderAbs (collapseSegs (splitSegs e.2 ++ Lrest) ++ ["index.ts"]))
      = joinSegs ((List.replicate (dropCommonSegs (collapseSegs (splitSegs dir))
          (collapseSegs (splitSegs e.2 ++ Lrest) ++ ["index.ts"])).1.length ".." ++ r)
        ++ ["index.ts"]) := by
    rw [relativeP]
    simp only [collapseSegs_splitSegs_renderAbs _ hNfree hNplain (by simp)]
    rw [hr, ← List.append_assoc]
  have hext : ¬((!(strStartsWith spec ".") && !(strStartsWith spec "/")) = true) := by
    rcases h1 with h | h <;> simp [h]
  have hpair : rewriteSpec fs dirMap dir spec
      = (let s1 := stripSuffixStr (joinSegs
            ((List.replicate (dropCommonSegs (collapseSegs (splitSegs dir))
              (collapseSegs (splitSegs e.2 ++ Lrest) ++ ["index.ts"])).1.length ".." ++ r)
            ++ ["index.ts"])) ".ts"
         (if strStartsWith s1 "." = true then s1 else "./" ++ s1, true)) := by
    rw [rewriteSpec, if_neg hext]
    simp only [h4, h2, h7, h8, hrel1, hnew, hnr]
    simp
  generalize hg : List.replicate (dropCommonSegs (collapseSegs (splitSegs dir))
      (collapseSegs (splitSegs e.2 ++ Lrest) ++ ["index.ts"])).1.length ".." ++ r
      = Mfin at hpair
  cases Mfin with
  | nil =>
    rw [hpair]
    decide
  | cons m M2 =>
    rw [hpair, joinSegs_append_last (m :: M2) "index.ts" (by simp),
      String.append_assoc, hslash2, stripSuffixStr_index_ts]
    refine ⟨rfl, ?_, ?_⟩
    · by_cases hS : strStartsWith (joinSegs (m :: M2) ++ "/index") "." = true
      · simp only [if_pos hS]
        exact strEndsWith_self_append _ "/index"
      · simp only [if_neg hS]
        exact strEndsWith_append_left "./" _ "/index" (strEndsWith_self_append _ "/index")
    · by_cases hS : strStartsWith (joinSegs (m :: M2) ++ "/index") "." = true
      · simp only [if_pos hS]
        exact not_strEndsWith_ts_of_index _
      · simp only [if_neg hS]
        rw [← String.append_assoc]
        exact not_strEndsWith_ts_of_index _

/-- Witness for the amended index-fallback form at the claim's own
example, where `../shared` is rewritten under the plan renaming `shared`
to `q9z`. -/
theorem rewrite_index_fallback_form_witness :
    (rewriteSpec sharedPost renamePlanShared "/p/src/sub" "../shared").2 = true
    ∧ strEndsWith (rewriteSpec sharedPost renamePlanShared "/p/src/sub" "../shared").1
        "/index" = true
    ∧ strEndsWith (rewriteSpec sharedPost renamePlanShared "/p/src/sub" "../shared").1
        ".ts" = false :=
  rewrite_index_fallback_form sharedPost renamePlanShared "/p/src/sub" "../shared"
    ("/p/src/shared", "/p/src/q9z") (by decide) (by decide) (by decide) (by decide)
    (by decide) (by decide) (by decide) (by decide)
